import Mathlib

/-!
Verification development for the velvet molecular-dynamics engine.
The repository ships only its documentation index, so every definition
below is modelled from the design specification (its data model,
component contracts and formulas) and is marked accordingly.
Real numbers stand in for the floating-point scalars of the code.
-/

set_option maxHeartbeats 1000000

noncomputable section

namespace Velvet

/-- Modelled from the spec: 3-vectors of positions, velocities and forces
(the code's 3-component float vectors are missing from the sources). -/
abbrev Vec3 := Fin 3 → ℝ

/-- Modelled from the spec: squared Euclidean norm of a 3-vector, used by
the minimum-image search (the vector-math helpers are missing from the
sources). -/
def normSq (v : Vec3) : ℝ := v 0 * v 0 + v 1 * v 1 + v 2 * v 2

/-- Modelled from the spec: per-atom state held by `System` — position,
velocity, species identifier and mass derived from the species (the
`System` storage code is missing from the sources). -/
structure Atom where
  position : Vec3
  velocity : Vec3
  mass : ℝ
  specie : ℕ

instance : Inhabited Atom := ⟨{ position := 0, velocity := 0, mass := 0, specie := 0 }⟩

/-- Modelled from the spec: the periodic bounding box — a 3x3 matrix of
lattice vectors plus per-axis periodicity flags (the `Cell` code is
missing from the sources). -/
structure Cell where
  vectors : Fin 3 → Vec3
  periodic : Fin 3 → Bool

/-- Modelled from the spec: the cell's lattice matrix, row i being the
i-th lattice vector. -/
def cellMatrix (c : Cell) : Matrix (Fin 3) (Fin 3) ℝ := Matrix.of c.vectors

/-- Modelled from the spec: a cell is non-singular when its lattice matrix
has non-zero determinant (positive volume invariant). -/
def Cell.nonsingular (c : Cell) : Prop := (cellMatrix c).det ≠ 0

/-- Modelled from the spec: `Cell.wrap` maps a coordinate into the
canonical periodic image by subtracting the integer part of each
fractional coordinate along every periodic axis; non-periodic axes are
left untouched (the `Cell` code is missing from the sources). -/
def Cell.wrap (c : Cell) (x : Vec3) : Vec3 :=
  let s : Vec3 := Matrix.mulVec ((cellMatrix c).transpose)⁻¹ x
  x - ∑ i : Fin 3, (if c.periodic i then (Int.floor (s i) : ℝ) else 0) • c.vectors i

/-- Modelled from the spec: the lattice translations tried by the
minimum-image search — at most the 27 neighboring images, with no shift
along non-periodic axes (the `Cell` code is missing from the sources). -/
def neighborOffsets (pbc : Fin 3 → Bool) : List (ℤ × ℤ × ℤ) :=
  let r : Fin 3 → List ℤ := fun i => if pbc i then [-1, 0, 1] else [0]
  (r 0).flatMap fun n0 => (r 1).flatMap fun n1 => (r 2).map fun n2 => (n0, n1, n2)

/-- Modelled from the spec: the lattice translation associated with an
integer offset triple. -/
def shiftVec (c : Cell) (t : ℤ × ℤ × ℤ) : Vec3 :=
  (t.1 : ℝ) • c.vectors 0 + (t.2.1 : ℝ) • c.vectors 1 + (t.2.2 : ℝ) • c.vectors 2

/-- Modelled from the spec: `minimum_image(a, b)` — the shortest
displacement from `a` to `b` under periodic boundary conditions, chosen
among the candidate displacements through the neighboring images by
minimal norm (the `Cell` code is missing from the sources). -/
def Cell.minimumImage (c : Cell) (a b : Vec3) : Vec3 :=
  let d := b - a
  ((neighborOffsets c.periodic).map fun t => d - shiftVec c t).foldl
    (fun best cand => if normSq cand < normSq best then cand else best) d

/-- Modelled from the spec: `System` — the ordered collection of atoms
together with the periodic cell (the `System` code is missing from the
sources). -/
structure System where
  atoms : List Atom
  cell : Cell

/-- Modelled from the spec: indexed access to the atom store (out-of-range
indices yield the default atom; the pair enumeration below only ever uses
in-range indices). -/
def atomAt (sys : System) (k : ℕ) : Atom := sys.atoms.getD k default

/-- Modelled from the spec: the closed family of pair-potential variants
(Lennard-Jones, Harmonic, Morse, Mie), each carrying immutable numeric
parameters (the potential code is missing from the sources). -/
inductive PairPotential
  | lennardJones (epsilon sigma : ℝ)
  | harmonic (k r0 : ℝ)
  | morse (wellDepth range r0 : ℝ)
  | mie (epsilon sigma : ℝ) (repExp attExp : ℕ)

/-- Modelled from the spec: `energy(r)` for each pair-potential variant,
with the closed forms given in the spec (Lennard-Jones
4ε[(σ/r)¹² − (σ/r)⁶], Harmonic ½k(r−r0)², Morse D[(1−e^(−a(r−r0)))²−1],
Mie as generalized Lennard-Jones with independent exponents). -/
def PairPotential.energy : PairPotential → ℝ → ℝ
  | .lennardJones epsilon sigma, r => 4 * epsilon * ((sigma / r) ^ 12 - (sigma / r) ^ 6)
  | .harmonic k r0, r => k / 2 * (r - r0) ^ 2
  | .morse wellDepth range r0, r =>
      wellDepth * ((1 - Real.exp (-(range * (r - r0)))) ^ 2 - 1)
  | .mie epsilon sigma repExp attExp, r =>
      epsilon * ((sigma / r) ^ repExp - (sigma / r) ^ attExp)

/-- Modelled from the spec: `force_magnitude(r)` — the derivative of the
pair energy with respect to the separation, negated (sign convention:
positive = repulsive). -/
def PairPotential.forceMag (p : PairPotential) (r : ℝ) : ℝ := -deriv p.energy r

/-- Modelled from the spec: the `Potentials` container maps a species pair
to the registered pair potential, `none` when the pair has no registered
potential (the optional global cutoff radius is not modelled; no claim
depends on it). -/
abbrev Potentials := ℕ → ℕ → Option PairPotential

/-- Modelled from the spec: a `Potentials` container with no registered
pair potentials. -/
def emptyPotentials : Potentials := fun _ _ => none

/-- Modelled from the spec: the candidate atom pairs (i, j) with i < j < n
enumerated by the O(N²) force and energy loops. -/
def atomPairs (n : ℕ) : List (ℕ × ℕ) :=
  (List.range n).flatMap fun j => (List.range j).map fun i => (i, j)

/-- Modelled from the spec: the minimum-image displacement between the two
atoms of a candidate pair. -/
def pairDisplacement (sys : System) (p : ℕ × ℕ) : Vec3 :=
  sys.cell.minimumImage (atomAt sys p.1).position (atomAt sys p.2).position

/-- Modelled from the spec: the scalar energy contributed by one candidate
pair — zero when the species pair has no registered potential (the
LookupGap policy), otherwise the potential's energy at the minimum-image
separation. -/
def pairEnergyTerm (pots : Potentials) (sys : System) (p : ℕ × ℕ) : ℝ :=
  match pots (atomAt sys p.1).specie (atomAt sys p.2).specie with
  | none => 0
  | some pot => pot.energy (Real.sqrt (normSq (pairDisplacement sys p)))

/-- Modelled from the spec: the force vector distributed to the second
member of a candidate pair — the force magnitude at the minimum-image
separation, directed along the displacement direction; the zero vector
when the species pair has no registered potential (the pair is
skipped). -/
def pairForceVec (pots : Potentials) (sys : System) (p : ℕ × ℕ) : Vec3 :=
  match pots (atomAt sys p.1).specie (atomAt sys p.2).specie with
  | none => 0
  | some pot =>
      (pot.forceMag (Real.sqrt (normSq (pairDisplacement sys p)))
          / Real.sqrt (normSq (pairDisplacement sys p)))
        • pairDisplacement sys p

/-- Modelled from the spec: the force vector a candidate pair contributes
to atom `k` — equal-and-opposite vectors along the displacement direction
for the two members of the pair, zero for every other atom (and zero for
the whole pair when its species pair has no registered potential). -/
def pairForceOn (pots : Potentials) (sys : System) (p : ℕ × ℕ) (k : ℕ) : Vec3 :=
  if k = p.1 then -pairForceVec pots sys p
  else if k = p.2 then pairForceVec pots sys p
  else 0

/-- Modelled from the spec: the total force on atom `k`, accumulated over
every candidate pair. -/
def forceOnAtom (pots : Potentials) (sys : System) (k : ℕ) : Vec3 :=
  ((atomPairs sys.atoms.length).map fun p => pairForceOn pots sys p k).sum

/-- Modelled from the spec: `compute_forces(system)` — one force vector
per atom, from the pairwise accumulation. -/
def computeForces (pots : Potentials) (sys : System) : List Vec3 :=
  (List.range sys.atoms.length).map (forceOnAtom pots sys)

/-- Modelled from the spec: `compute_pair_energy(system)` — the sum of the
pair energies over the same pair enumeration. -/
def computePairEnergy (pots : Potentials) (sys : System) : ℝ :=
  ((atomPairs sys.atoms.length).map (pairEnergyTerm pots sys)).sum

/-- Modelled from the spec: KineticEnergy = Σ ½ mᵢ |vᵢ|². -/
def kineticEnergy (sys : System) : ℝ :=
  (sys.atoms.map fun a => a.mass / 2 * normSq a.velocity).sum

/-- Modelled from the spec: the Boltzmann constant used by the Temperature
reduction (numeric value immaterial to the claims). -/
def kB : ℝ := 1.380649e-23

/-- Modelled from the spec: Temperature = 2·KineticEnergy / (kB · dof)
with the fixed policy dof = 3N (unconstrained degrees of freedom). -/
def temperature (sys : System) : ℝ :=
  2 * kineticEnergy sys / (kB * (3 * sys.atoms.length))

/-- Modelled from the spec: TotalEnergy = KineticEnergy + PotentialEnergy,
the potential part delegating to the pairwise energy sum. -/
def totalEnergy (pots : Potentials) (sys : System) : ℝ :=
  kineticEnergy sys + computePairEnergy pots sys

/-- Modelled from the spec: multiply every velocity of the system by a
common factor, the primitive used by the velocity-rescaling
thermostats. -/
def scaleVelocities (c : ℝ) (sys : System) : System :=
  { sys with atoms := sys.atoms.map fun a => { a with velocity := c • a.velocity } }

/-- Modelled from the spec: the Berendsen rescale factor
λ = sqrt(1 + (dt/τ)(T_target/T_current − 1)). -/
def berendsenFactor (targetTemp tau dt T : ℝ) : ℝ :=
  Real.sqrt (1 + dt / tau * (targetTemp / T - 1))

/-- Modelled from the spec: the Berendsen thermostat's `apply` — skip the
rescaling when the current temperature is zero (undefined ratio),
otherwise rescale every velocity by the Berendsen factor (the thermostat
code is missing from the sources). -/
def berendsenApply (targetTemp tau dt T : ℝ) (sys : System) : System :=
  if T = 0 then sys else scaleVelocities (berendsenFactor targetTemp tau dt T) sys

/-- Modelled from the spec: the explicit-Euler update of the Nose-Hoover
friction coefficient over one timestep,
ζ' = ζ + dt · (T_current − T_target)/(τ²·T_target). -/
def zetaStep (targetTemp tau dt zeta T : ℝ) : ℝ :=
  zeta + dt * ((T - targetTemp) / (tau ^ 2 * targetTemp))

/-- Modelled from the spec: the Nose-Hoover thermostat's `apply` — first
integrate the friction coefficient over the timestep, then scale every
velocity by (1 − ζ·dt) with the updated coefficient; the updated
coefficient is returned as the persistent thermostat state (the
thermostat code is missing from the sources). -/
def noseHooverApply (targetTemp tau zeta T dt : ℝ) (sys : System) : System × ℝ :=
  let z := zetaStep targetTemp tau dt zeta T
  (scaleVelocities (1 - z * dt) sys, z)

/-- Modelled from the spec: the closed family of thermostat variants
(Null, Berendsen, Nose-Hoover). -/
inductive Thermostat
  | null
  | berendsen (targetTemp tau : ℝ)
  | noseHoover (targetTemp tau : ℝ)

/-- Modelled from the spec: `apply(system, current_temperature, timestep)`
for each thermostat variant, threading the one piece of persistent
thermostat state (the Nose-Hoover friction coefficient; unused and
returned unchanged by the stateless variants). Null is a no-op. -/
def applyThermostat : Thermostat → ℝ → ℝ → ℝ → System → System × ℝ
  | .null, zeta, _, _, sys => (sys, zeta)
  | .berendsen targetTemp tau, zeta, T, dt, sys =>
      (berendsenApply targetTemp tau dt T sys, zeta)
  | .noseHoover targetTemp tau, zeta, T, dt, sys =>
      noseHooverApply targetTemp tau zeta T dt sys

/-- Modelled from the spec: the Velocity Verlet step —
x(t+dt) = wrap(x(t) + v(t)·dt + ½a(t)·dt²) with a = force/mass, forces
recomputed at the new positions, then
v(t+dt) = v(t) + ½(a(t) + a(t+dt))·dt (the integrator code is missing
from the sources). -/
def verletStep (pots : Potentials) (dt : ℝ) (sys : System) : System :=
  let n := sys.atoms.length
  let sys1 : System :=
    { sys with
      atoms := (List.range n).map fun k =>
        let a := atomAt sys k
        let acc := (1 / a.mass) • forceOnAtom pots sys k
        { a with
          position := sys.cell.wrap (a.position + dt • a.velocity + (dt ^ 2 / 2) • acc) } }
  { sys1 with
    atoms := (List.range n).map fun k =>
      let a0 := atomAt sys k
      let a1 := atomAt sys1 k
      let accOld := (1 / a0.mass) • forceOnAtom pots sys k
      let accNew := (1 / a1.mass) • forceOnAtom pots sys1 k
      { a1 with velocity := a1.velocity + (dt / 2) • (accOld + accNew) } }

/-- Modelled from the spec: one step of the Simulation orchestrator —
integrate (which recomputes forces at the new positions), measure the
instantaneous temperature, then apply the thermostat, threading the
persistent thermostat state (the `Simulation` code is missing from the
sources). -/
def simStep (pots : Potentials) (th : Thermostat) (dt : ℝ) (st : System × ℝ) :
    System × ℝ :=
  let sys1 := verletStep pots dt st.1
  applyThermostat th st.2 (temperature sys1) dt sys1

/-- Modelled from the spec: the `Element` enum — every element on the
periodic table, one variant per element (the element-metadata code is
missing from the sources). -/
inductive Element
  | H | He | Li | Be | B | C | N | O | F | Ne
  | Na | Mg | Al | Si | P | S | Cl | Ar | K | Ca
  | Sc | Ti | V | Cr | Mn | Fe | Co | Ni | Cu | Zn
  | Ga | Ge | As | Se | Br | Kr | Rb | Sr | Y | Zr
  | Nb | Mo | Tc | Ru | Rh | Pd | Ag | Cd | In | Sn
  | Sb | Te | I | Xe | Cs | Ba | La | Ce | Pr | Nd
  | Pm | Sm | Eu | Gd | Tb | Dy | Ho | Er | Tm | Yb
  | Lu | Hf | Ta | W | Re | Os | Ir | Pt | Au | Hg
  | Tl | Pb | Bi | Po | At | Rn | Fr | Ra | Ac | Th
  | Pa | U | Np | Pu | Am | Cm | Bk | Cf | Es | Fm
  | Md | No | Lr | Rf | Db | Sg | Bh | Hs | Mt | Ds
  | Rg | Cn | Nh | Fl | Mc | Lv | Ts | Og

/-- Modelled from the spec: the element-metadata mass lookup — the static
table assigning a standard atomic mass to a species, `none` reserved for
a species with no defined mass (the element-metadata code is missing
from the sources; the table covers every `Element` variant
exhaustively). -/
def Element.massOf : Element → Option ℝ
  | .H => some 1.008 | .He => some 4.0026 | .Li => some 6.94 | .Be => some 9.0122
  | .B => some 10.81 | .C => some 12.011 | .N => some 14.007 | .O => some 15.999
  | .F => some 18.998 | .Ne => some 20.18 | .Na => some 22.99 | .Mg => some 24.305
  | .Al => some 26.982 | .Si => some 28.085 | .P => some 30.974 | .S => some 32.06
  | .Cl => some 35.45 | .Ar => some 39.95 | .K => some 39.098 | .Ca => some 40.078
  | .Sc => some 44.956 | .Ti => some 47.867 | .V => some 50.942 | .Cr => some 51.996
  | .Mn => some 54.938 | .Fe => some 55.845 | .Co => some 58.933 | .Ni => some 58.693
  | .Cu => some 63.546 | .Zn => some 65.38 | .Ga => some 69.723 | .Ge => some 72.63
  | .As => some 74.922 | .Se => some 78.971 | .Br => some 79.904 | .Kr => some 83.798
  | .Rb => some 85.468 | .Sr => some 87.62 | .Y => some 88.906 | .Zr => some 91.224
  | .Nb => some 92.906 | .Mo => some 95.95 | .Tc => some 97 | .Ru => some 101.07
  | .Rh => some 102.91 | .Pd => some 106.42 | .Ag => some 107.87 | .Cd => some 112.41
  | .In => some 114.82 | .Sn => some 118.71 | .Sb => some 121.76 | .Te => some 127.6
  | .I => some 126.9 | .Xe => some 131.29 | .Cs => some 132.91 | .Ba => some 137.33
  | .La => some 138.91 | .Ce => some 140.12 | .Pr => some 140.91 | .Nd => some 144.24
  | .Pm => some 145 | .Sm => some 150.36 | .Eu => some 151.96 | .Gd => some 157.25
  | .Tb => some 158.93 | .Dy => some 162.5 | .Ho => some 164.93 | .Er => some 167.26
  | .Tm => some 168.93 | .Yb => some 173.05 | .Lu => some 174.97 | .Hf => some 178.49
  | .Ta => some 180.95 | .W => some 183.84 | .Re => some 186.21 | .Os => some 190.23
  | .Ir => some 192.22 | .Pt => some 195.08 | .Au => some 196.97 | .Hg => some 200.59
  | .Tl => some 204.38 | .Pb => some 207.2 | .Bi => some 208.98 | .Po => some 209
  | .At => some 210 | .Rn => some 222 | .Fr => some 223 | .Ra => some 226
  | .Ac => some 227 | .Th => some 232.04 | .Pa => some 231.04 | .U => some 238.03
  | .Np => some 237 | .Pu => some 244 | .Am => some 243 | .Cm => some 247
  | .Bk => some 247 | .Cf => some 251 | .Es => some 252 | .Fm => some 257
  | .Md => some 258 | .No => some 259 | .Lr => some 266 | .Rf => some 267
  | .Db => some 268 | .Sg => some 269 | .Bh => some 270 | .Hs => some 269
  | .Mt => some 278 | .Ds => some 281 | .Rg => some 282 | .Cn => some 285
  | .Nh => some 286 | .Fl => some 289 | .Mc => some 290 | .Lv => some 293
  | .Ts => some 294 | .Og => some 294

/-- Modelled from the spec: the construction-time configuration check that
every species referenced by an atom resolves to a defined mass (the
ConfigurationError path for unknown species / missing mass; the
`Simulation` construction code is missing from the sources). -/
def speciesMassesDefined (species : List Element) : Bool :=
  species.all fun e => (Element.massOf e).isSome

/-- Modelled from the spec: a concrete unit cubic, fully periodic cell,
used as a test input. -/
def unitCell : Cell :=
  { vectors := fun i j => if i = j then 1 else 0
    periodic := fun _ => true }

/-- Modelled from the spec: a one-atom test system with unit mass, zero
position and velocity 2 along the first axis, used as a test input. -/
def driftSystem : System :=
  { atoms := [{ position := 0
                velocity := fun j => if j = 0 then 2 else 0
                mass := 1
                specie := 0 }]
    cell := unitCell }

/-- Modelled from the spec: a two-atom test system (species 0 and 1, both
at rest) used as a test input. -/
def pairSystem : System :=
  { atoms := [ { position := 0, velocity := 0, mass := 1, specie := 0 }
             , { position := fun j => if j = 0 then 1 / 2 else 0
                 velocity := 0
                 mass := 1
                 specie := 1 } ]
    cell := unitCell }

/-! Shared helper lemmas. -/

lemma normSq_nonneg (v : Vec3) : 0 ≤ normSq v := by
  unfold normSq
  nlinarith [mul_self_nonneg (v 0), mul_self_nonneg (v 1), mul_self_nonneg (v 2)]

lemma eq_zero_of_normSq_eq_zero {v : Vec3} (h : normSq v = 0) : v = 0 := by
  unfold normSq at h
  funext i
  have h0 : v 0 = 0 := by nlinarith [mul_self_nonneg (v 0), mul_self_nonneg (v 1), mul_self_nonneg (v 2)]
  have h1 : v 1 = 0 := by nlinarith [mul_self_nonneg (v 0), mul_self_nonneg (v 1), mul_self_nonneg (v 2)]
  have h2 : v 2 = 0 := by nlinarith [mul_self_nonneg (v 0), mul_self_nonneg (v 1), mul_self_nonneg (v 2)]
  fin_cases i <;> simpa

lemma foldlMin_le_init (l : List Vec3) (d : Vec3) :
    normSq (l.foldl (fun best cand => if normSq cand < normSq best then cand else best) d)
      ≤ normSq d := by
  induction l generalizing d with
  | nil => exact le_refl _
  | cons x xs ih =>
    simp only [List.foldl_cons]
    refine le_trans (ih _) ?_
    by_cases h : normSq x < normSq d
    · rw [if_pos h]
      exact le_of_lt h
    · rw [if_neg h]

lemma foldlMin_le_mem (l : List Vec3) (d x : Vec3) :
    x ∈ l →
    normSq (l.foldl (fun best cand => if normSq cand < normSq best then cand else best) d)
      ≤ normSq x := by
  induction l generalizing d with
  | nil => intro hx; cases hx
  | cons y ys ih =>
    intro hx
    simp only [List.foldl_cons]
    rcases List.mem_cons.mp hx with rfl | hmem
    · refine le_trans (foldlMin_le_init ys _) ?_
      by_cases h : normSq x < normSq d
      · rw [if_pos h]
      · rw [if_neg h]
        exact le_of_not_lt h
    · exact ih _ hmem

lemma list_sum_range_eq {M : Type*} [AddCommMonoid M] (f : ℕ → M) (n : ℕ) :
    ((List.range n).map f).sum = ∑ k ∈ Finset.range n, f k := by
  induction n with
  | zero => simp
  | succ n ih =>
    rw [List.range_succ, List.map_append, List.sum_append, Finset.sum_range_succ, ih]
    simp

lemma finset_sum_listMap_swap {M ι α : Type*} [AddCommMonoid M] (s : Finset ι)
    (l : List α) (g : ι → α → M) :
    ∑ k ∈ s, (l.map (g k)).sum = (l.map fun a => ∑ k ∈ s, g k a).sum := by
  induction l with
  | nil => simp
  | cons x xs ih => simp [Finset.sum_add_distrib, ih]

lemma sum_range_pair_ite {M : Type*} [AddCommMonoid M] (n i j : ℕ) (hij : i ≠ j)
    (hi : i < n) (hj : j < n) (a b : M) :
    (∑ k ∈ Finset.range n, if k = i then a else if k = j then b else 0) = a + b := by
  have hsplit : ∀ k ∈ Finset.range n,
      (if k = i then a else if k = j then b else 0)
        = (if k = i then a else 0) + (if k = j then b else 0) := by
    intro k _
    by_cases h1 : k = i
    · subst h1
      rw [if_pos rfl, if_pos rfl, if_neg hij, add_zero]
    · rw [if_neg h1, if_neg h1, zero_add]
  rw [Finset.sum_congr rfl hsplit, Finset.sum_add_distrib,
    Finset.sum_ite_eq' (Finset.range n) i (fun _ => a),
    Finset.sum_ite_eq' (Finset.range n) j (fun _ => b),
    if_pos (Finset.mem_range.mpr hi), if_pos (Finset.mem_range.mpr hj)]

lemma list_sum_map_filter_of_zero {M α : Type*} [AddCommMonoid M] (l : List α)
    (f : α → M) (q : α → Bool) (h : ∀ x ∈ l, q x = false → f x = 0) :
    (l.map f).sum = ((l.filter q).map f).sum := by
  induction l with
  | nil => rfl
  | cons x xs ih =>
    have hxs : ∀ y ∈ xs, q y = false → f y = 0 := fun y hy => h y (List.mem_cons_of_mem _ hy)
    cases hq : q x with
    | false => simp [List.filter_cons, hq, h x (List.mem_cons_self x xs) hq, ih hxs]
    | true => simp [List.filter_cons, hq, ih hxs]

lemma getD_map_range {α : Type*} [Inhabited α] (g : ℕ → α) (n k : ℕ) (hk : k < n) :
    ((List.range n).map g).getD k default = g k := by
  have hlen : k < ((List.range n).map g).length := by simpa using hk
  rw [List.getD_eq_getElem _ _ hlen]
  simp

lemma mem_atomPairs {n : ℕ} {p : ℕ × ℕ} (hp : p ∈ atomPairs n) :
    p.1 < p.2 ∧ p.2 < n := by
  rcases List.mem_flatMap.mp hp with ⟨j, hj, hmem⟩
  rcases List.mem_map.mp hmem with ⟨i, hi, rfl⟩
  exact ⟨List.mem_range.mp hi, List.mem_range.mp hj⟩

lemma scaleVelocities_one (sys : System) : scaleVelocities 1 sys = sys := by
  cases sys with
  | mk atoms cell =>
    simp only [scaleVelocities, one_smul]
    congr 1
    have hfun : (fun a : Atom => { a with velocity := a.velocity }) = id :=
      funext fun a => by cases a; rfl
    rw [hfun, List.map_id]

lemma scaleVelocities_comp (c1 c2 : ℝ) (sys : System) :
    scaleVelocities c2 (scaleVelocities c1 sys) = scaleVelocities (c1 * c2) sys := by
  cases sys with
  | mk atoms cell =>
    simp only [scaleVelocities, List.map_map]
    congr 1
    apply List.map_congr_left
    intro a _
    cases a
    simp only [Function.comp_apply, smul_smul]
    rw [mul_comm c1 c2]

lemma pairForceVec_empty (sys : System) (p : ℕ × ℕ) :
    pairForceVec emptyPotentials sys p = 0 := rfl

lemma pairForceOn_empty (sys : System) (p : ℕ × ℕ) (k : ℕ) :
    pairForceOn emptyPotentials sys p k = 0 := by
  simp [pairForceOn, pairForceVec_empty]

lemma forceOnAtom_empty (sys : System) (k : ℕ) :
    forceOnAtom emptyPotentials sys k = 0 := by
  unfold forceOnAtom
  apply List.sum_eq_zero
  intro x hx
  rcases List.mem_map.mp hx with ⟨p, _, rfl⟩
  exact pairForceOn_empty sys p k

lemma computePairEnergy_empty (sys : System) :
    computePairEnergy emptyPotentials sys = 0 := by
  unfold computePairEnergy
  apply List.sum_eq_zero
  intro x hx
  rcases List.mem_map.mp hx with ⟨p, _, rfl⟩
  rfl

lemma list_map_range_getD {α : Type*} [Inhabited α] (l : List α) :
    (List.range l.length).map (fun k => l.getD k default) = l := by
  apply List.ext_getElem
  · simp
  · intro i h1 h2
    simp [List.getD_eq_getElem l default h2, List.getElem?_eq_getElem h2]

lemma verletStep_empty_spec (dt : ℝ) (sys : System) :
    (verletStep emptyPotentials dt sys).atoms
      = sys.atoms.map fun a =>
          { a with position := sys.cell.wrap (a.position + dt • a.velocity) } := by
  conv_rhs => rw [← list_map_range_getD sys.atoms, List.map_map]
  simp only [verletStep, forceOnAtom_empty, smul_zero, add_zero]
  apply List.map_congr_left
  intro k hk
  have hn : k < sys.atoms.length := List.mem_range.mp hk
  simp only [Function.comp_apply, atomAt, getD_map_range _ _ _ hn]

lemma kineticEnergy_verletStep_empty (dt : ℝ) (sys : System) :
    kineticEnergy (verletStep emptyPotentials dt sys) = kineticEnergy sys := by
  unfold kineticEnergy
  rw [verletStep_empty_spec, List.map_map]
  rfl

lemma totalEnergy_simStep_null (dt : ℝ) (st : System × ℝ) :
    totalEnergy emptyPotentials (simStep emptyPotentials .null dt st).1
      = totalEnergy emptyPotentials st.1 := by
  simp [simStep, applyThermostat, totalEnergy, computePairEnergy_empty,
    kineticEnergy_verletStep_empty]

lemma minimumImage_zero_of_cancellable (c : Cell) (p q : Vec3) (t : ℤ × ℤ × ℤ)
    (hmem : t ∈ neighborOffsets c.periodic) (hcancel : q - p = shiftVec c t) :
    c.minimumImage p q = 0 := by
  apply eq_zero_of_normSq_eq_zero
  refine le_antisymm ?_ (normSq_nonneg _)
  unfold Cell.minimumImage
  have hx : (q - p) - shiftVec c t
      ∈ (neighborOffsets c.periodic).map fun u => (q - p) - shiftVec c u :=
    List.mem_map_of_mem _ hmem
  refine le_trans (foldlMin_le_mem _ (q - p) _ hx) ?_
  rw [hcancel, sub_self]
  simp [normSq]

lemma cellMatrix_unitCell : cellMatrix unitCell = 1 := by
  ext i j
  simp [cellMatrix, unitCell, Matrix.one_apply]

lemma unitCell_wrap (x : Vec3) :
    unitCell.wrap x = x - ∑ i : Fin 3, (Int.floor (x i) : ℝ) • unitCell.vectors i := by
  unfold Cell.wrap
  rw [cellMatrix_unitCell, Matrix.transpose_one, inv_one, Matrix.one_mulVec]
  simp [unitCell]

/-! Claim theorems. -/

/-- C1: with the Null thermostat and no registered pair potentials, the
total energy (kinetic plus potential) after any number of simulation
steps equals the initial total energy; in the real-arithmetic model the
equality is exact, hence within any numerical tolerance. -/
theorem nullThermostat_energy_conservation (dt : ℝ) (sys : System) (zeta0 : ℝ) (n : ℕ) :
    totalEnergy emptyPotentials ((simStep emptyPotentials .null dt)^[n] (sys, zeta0)).1
      = totalEnergy emptyPotentials sys := by
  induction n with
  | zero => rfl
  | succ n ih =>
    rw [Function.iterate_succ_apply', totalEnergy_simStep_null]
    exact ih

/-- C2 (amended): one Velocity Verlet step under zero forces leaves every
velocity unchanged and moves every position to the periodic wrap of
x(t) + v(t)·dt; the unwrapped value x(t) + v(t)·dt itself is attained
exactly whenever that point already lies in the canonical image. -/
theorem verletStep_zero_force_update (dt : ℝ) (sys : System) :
    (verletStep emptyPotentials dt sys).atoms.map Atom.velocity
        = sys.atoms.map Atom.velocity
      ∧ (verletStep emptyPotentials dt sys).atoms.map Atom.position
        = sys.atoms.map fun a => sys.cell.wrap (a.position + dt • a.velocity) := by
  rw [verletStep_empty_spec, List.map_map, List.map_map]
  constructor <;> rfl

/-- C2 (counterexample): for the one-atom system `driftSystem` in the unit
periodic cell, a zero-force Velocity Verlet step with dt = 1 does not
return position x(t) + v(t)·dt: the integrator wraps the new position
back into the canonical image, giving 0 instead of 2 in the first
coordinate. -/
theorem verletStep_position_claim_counterexample :
    ((verletStep emptyPotentials 1 driftSystem).atoms.getD 0 default).position
      ≠ (driftSystem.atoms.getD 0 default).position
        + (1 : ℝ) • (driftSystem.atoms.getD 0 default).velocity := by
  intro h
  have h0 := congrFun h 0
  rw [verletStep_empty_spec] at h0
  simp only [driftSystem, List.map_cons, List.map_nil, List.getD_cons_zero] at h0
  rw [unitCell_wrap] at h0
  simp [Fin.sum_univ_three, unitCell, Pi.add_apply, Pi.smul_apply, Pi.sub_apply,
    Int.floor_zero, Int.floor_ofNat] at h0

/-- C4: the Berendsen thermostat rescales by
λ = sqrt(1 + (dt/τ)(T_target/T_current − 1)); when the current
temperature equals the (non-zero) target temperature the factor is 1 and
applying the thermostat leaves the system unchanged. -/
theorem berendsen_at_target_identity (targetTemp tau dt T : ℝ) (sys : System)
    (hT : T = targetTemp) (h0 : T ≠ 0) :
    berendsenFactor targetTemp tau dt T = 1
      ∧ berendsenApply targetTemp tau dt T sys = sys := by
  have hfac : berendsenFactor targetTemp tau dt T = 1 := by
    unfold berendsenFactor
    rw [← hT, div_self h0]
    simp
  refine ⟨hfac, ?_⟩
  unfold berendsenApply
  rw [if_neg h0, hfac, scaleVelocities_one]

/-- C4 witness: at target temperature 1, current temperature 1, the factor
is 1 and the two-atom test system is unchanged. -/
theorem berendsen_at_target_identity_witness :
    berendsenFactor 1 1 1 1 = 1 ∧ berendsenApply 1 1 1 1 pairSystem = pairSystem :=
  berendsen_at_target_identity 1 1 1 1 pairSystem rfl one_ne_zero

/-- C5: when all velocities are zero the measured temperature is zero and
the Berendsen thermostat skips the rescaling entirely, leaving the
velocities (indeed the whole system) unchanged with no division by
zero. -/
theorem berendsen_zero_temperature_skip (targetTemp tau dt : ℝ) (sys : System)
    (hv : ∀ a ∈ sys.atoms, a.velocity = 0) :
    temperature sys = 0
      ∧ berendsenApply targetTemp tau dt (temperature sys) sys = sys := by
  have hke : kineticEnergy sys = 0 := by
    unfold kineticEnergy
    apply List.sum_eq_zero
    intro x hx
    rcases List.mem_map.mp hx with ⟨a, ha, rfl⟩
    rw [hv a ha]
    simp [normSq]
  have ht : temperature sys = 0 := by
    unfold temperature
    rw [hke]
    simp
  refine ⟨ht, ?_⟩
  unfold berendsenApply
  rw [ht, if_pos rfl]

/-- C5 witness: the two-atom test system is at rest, its temperature is
zero, and the Berendsen thermostat leaves it unchanged. -/
theorem berendsen_zero_temperature_skip_witness :
    temperature pairSystem = 0
      ∧ berendsenApply 1 1 1 (temperature pairSystem) pairSystem = pairSystem :=
  berendsen_zero_temperature_skip 1 1 1 pairSystem (by
    intro a ha
    simp only [pairSystem, List.mem_cons, List.not_mem_nil, or_false] at ha
    rcases ha with rfl | rfl <;> rfl)

/-- C9: each Nose-Hoover application first advances the friction
coefficient ζ by dt·(T − T_target)/(τ²·T_target) and then scales every
velocity by (1 − ζ·dt) with the updated ζ; over two consecutive
applications the ζ used by the second step is exactly the ζ evolved by
the first, and ζ is the only thermostat state carried across steps. -/
theorem noseHoover_friction_state_evolution (targetTemp tau zeta0 T1 T2 dt : ℝ)
    (sys : System) :
    noseHooverApply targetTemp tau (noseHooverApply targetTemp tau zeta0 T1 dt sys).2 T2 dt
        (noseHooverApply targetTemp tau zeta0 T1 dt sys).1
      = (scaleVelocities
            ((1 - zetaStep targetTemp tau dt zeta0 T1 * dt)
              * (1 - zetaStep targetTemp tau dt (zetaStep targetTemp tau dt zeta0 T1) T2 * dt))
            sys,
          zetaStep targetTemp tau dt (zetaStep targetTemp tau dt zeta0 T1) T2) := by
  unfold noseHooverApply
  simp [scaleVelocities_comp]

/-- C10: the element mass table is total over the whole periodic table —
every `Element` variant has a defined mass — so a system whose species
are drawn from `Element` can never trigger the unknown-species or
missing-mass configuration error. -/
theorem element_mass_lookup_total (species : List Element) :
    (∀ e : Element, (Element.massOf e).isSome = true)
      ∧ speciesMassesDefined species = true := by
  have htot : ∀ e : Element, (Element.massOf e).isSome = true := fun e => by
    cases e <;> rfl
  refine ⟨htot, ?_⟩
  unfold speciesMassesDefined
  rw [List.all_eq_true]
  intro e _
  exact htot e

/-- C6: for a non-singular, fully periodic cell, the minimum-image
displacement between a point and its own periodic image exactly one cell
vector away is the zero vector. -/
theorem minimumImage_own_periodic_image_zero (c : Cell) (_hns : c.nonsingular)
    (hper : ∀ i, c.periodic i = true) (p : Vec3) (i : Fin 3) :
    c.minimumImage p (p + c.vectors i) = 0 := by
  have hpbc : c.periodic = fun _ => true := funext hper
  fin_cases i
  · refine minimumImage_zero_of_cancellable c p _ (1, 0, 0) ?_ ?_
    · rw [hpbc]
      decide
    · simp [shiftVec]
  · refine minimumImage_zero_of_cancellable c p _ (0, 1, 0) ?_ ?_
    · rw [hpbc]
      decide
    · simp [shiftVec]
  · refine minimumImage_zero_of_cancellable c p _ (0, 0, 1) ?_ ?_
    · rw [hpbc]
      decide
    · simp [shiftVec]

/-- C6 witness: the unit cubic periodic cell is non-singular, and the
minimum-image displacement from the origin to its own image one lattice
vector away is zero. -/
theorem minimumImage_own_periodic_image_zero_witness :
    unitCell.minimumImage 0 (0 + unitCell.vectors 0) = 0 :=
  minimumImage_own_periodic_image_zero unitCell
    (by rw [Cell.nonsingular, cellMatrix_unitCell]; simp)
    (fun _ => rfl) 0 0

/-- C7: a candidate pair whose species combination has no registered
potential contributes exactly zero pair energy and zero force to every
atom, and both the total pair energy and every per-atom force equal the
sums taken over only the remaining (registered) pairs — the gap does not
corrupt the sums. -/
theorem lookupGap_zero_interaction (pots : Potentials) (sys : System) (i j : ℕ)
    (hnone : pots (atomAt sys i).specie (atomAt sys j).specie = none) :
    pairEnergyTerm pots sys (i, j) = 0
      ∧ (∀ k, pairForceOn pots sys (i, j) k = 0)
      ∧ computePairEnergy pots sys
          = (((atomPairs sys.atoms.length).filter fun p => decide (p ≠ (i, j))).map
              (pairEnergyTerm pots sys)).sum
      ∧ ∀ k, forceOnAtom pots sys k
          = (((atomPairs sys.atoms.length).filter fun p => decide (p ≠ (i, j))).map
              fun p => pairForceOn pots sys p k).sum := by
  have hE : pairEnergyTerm pots sys (i, j) = 0 := by
    simp [pairEnergyTerm, hnone]
  have hV : pairForceVec pots sys (i, j) = 0 := by
    simp [pairForceVec, hnone]
  have hF : ∀ k, pairForceOn pots sys (i, j) k = 0 := by
    intro k
    simp [pairForceOn, hV]
  refine ⟨hE, hF, ?_, ?_⟩
  · unfold computePairEnergy
    apply list_sum_map_filter_of_zero
    intro x _ hq
    have hx : x = (i, j) := by simpa using hq
    rw [hx]
    exact hE
  · intro k
    unfold forceOnAtom
    apply list_sum_map_filter_of_zero
    intro x _ hq
    have hx : x = (i, j) := by simpa using hq
    rw [hx]
    exact hF k

/-- C7 witness: in the two-atom test system with no registered potentials,
the (0, 1) pair is skipped with zero contribution and the sums are
unaffected. -/
theorem lookupGap_zero_interaction_witness :
    pairEnergyTerm emptyPotentials pairSystem (0, 1) = 0
      ∧ (∀ k, pairForceOn emptyPotentials pairSystem (0, 1) k = 0)
      ∧ computePairEnergy emptyPotentials pairSystem
          = (((atomPairs pairSystem.atoms.length).filter
                fun p => decide (p ≠ (0, 1))).map
              (pairEnergyTerm emptyPotentials pairSystem)).sum
      ∧ ∀ k, forceOnAtom emptyPotentials pairSystem k
          = (((atomPairs pairSystem.atoms.length).filter
                fun p => decide (p ≠ (0, 1))).map
              fun p => pairForceOn emptyPotentials pairSystem p k).sum :=
  lookupGap_zero_interaction emptyPotentials pairSystem 0 1 rfl

/-- C8: every candidate pair contributes equal-and-opposite force vectors
to its two atoms, and consequently the vector sum over all atoms of the
forces returned by the force computation is the zero vector. -/
theorem pairForces_newton_third_law (pots : Potentials) (sys : System) :
    (∀ p : ℕ × ℕ, p.1 ≠ p.2 →
        pairForceOn pots sys p p.1 = -pairForceOn pots sys p p.2)
      ∧ (computeForces pots sys).sum = 0 := by
  constructor
  · intro p hne
    simp [pairForceOn, Ne.symm hne]
  · unfold computeForces
    rw [list_sum_range_eq]
    unfold forceOnAtom
    rw [finset_sum_listMap_swap]
    apply List.sum_eq_zero
    intro x hx
    rcases List.mem_map.mp hx with ⟨p, hp, rfl⟩
    rcases mem_atomPairs hp with ⟨h12, h2n⟩
    have h1n : p.1 < sys.atoms.length := lt_trans h12 h2n
    unfold pairForceOn
    rw [sum_range_pair_ite sys.atoms.length p.1 p.2 (Nat.ne_of_lt h12) h1n h2n]
    simp

/-- C3: with the Lennard-Jones energy 4ε[(σ/r)¹² − (σ/r)⁶] and the force
magnitude defined as the negated derivative of the energy in r, the force
at the potential-minimum separation r = σ·2^(1/6) is exactly zero. -/
theorem lennardJones_zero_force_at_minimum (epsilon sigma : ℝ) (hs : 0 < sigma) :
    (PairPotential.lennardJones epsilon sigma).forceMag (sigma * 2 ^ ((1 : ℝ) / 6)) = 0 := by
  set r := sigma * 2 ^ ((1 : ℝ) / 6) with hr
  have h2 : (0 : ℝ) < 2 ^ ((1 : ℝ) / 6) := Real.rpow_pos_of_pos two_pos _
  have hrpos : 0 < r := mul_pos hs h2
  have hrne : r ≠ 0 := ne_of_gt hrpos
  have h1 : HasDerivAt (fun s : ℝ => sigma / s) ((0 * r - sigma * 1) / r ^ 2) r :=
    (hasDerivAt_const r sigma).div (hasDerivAt_id r) hrne
  have h12 := h1.pow 12
  have h6 := h1.pow 6
  have hmain := (h12.sub h6).const_mul (4 * epsilon)
  have hfun : (PairPotential.lennardJones epsilon sigma).energy
      = fun s : ℝ => 4 * epsilon * ((sigma / s) ^ 12 - (sigma / s) ^ 6) := rfl
  unfold PairPotential.forceMag
  rw [hfun, hmain.deriv]
  have ht6 : ((2 : ℝ) ^ ((1 : ℝ) / 6)) ^ (6 : ℕ) = 2 := by
    rw [← Real.rpow_natCast ((2 : ℝ) ^ ((1 : ℝ) / 6)) 6,
      ← Real.rpow_mul (by norm_num : (0 : ℝ) ≤ 2)]
    have hq : (1 : ℝ) / 6 * ((6 : ℕ) : ℝ) = 1 := by push_cast; ring
    rw [hq, Real.rpow_one]
  have hu : sigma / r = ((2 : ℝ) ^ ((1 : ℝ) / 6))⁻¹ := by
    rw [hr]
    exact div_mul_cancel_left₀ (ne_of_gt hs) _
  have hu6 : (sigma / r) ^ 6 = 1 / 2 := by
    rw [hu, inv_pow, ht6, one_div]
  have key : 12 * (sigma / r) ^ 11 - 6 * (sigma / r) ^ 5 = 0 := by
    have h11 : (sigma / r) ^ 11 = (sigma / r) ^ 5 * (sigma / r) ^ 6 := by ring
    rw [h11, hu6]
    ring
  simp only [Nat.cast_ofNat]
  linear_combination (-(4 * epsilon * ((0 * r - sigma * 1) / r ^ 2))) * key

/-- C3 witness: for ε = σ = 1 the Lennard-Jones force magnitude at
r = 2^(1/6) is zero. -/
theorem lennardJones_zero_force_at_minimum_witness :
    (PairPotential.lennardJones 1 1).forceMag (1 * 2 ^ ((1 : ℝ) / 6)) = 0 :=
  lennardJones_zero_force_at_minimum 1 1 one_pos

end Velvet
